import Mathlib

/-!
Verification development for the Menudo futures backtesting engine.

Shallow embedding conventions:
* Rust `f64` prices and cash amounts are modelled as exact rationals (`ℚ`);
  the claims under study are about the algorithmic arithmetic, not about
  floating-point rounding.
* Rust `i32`/`u32`/`u64` quantities and identifiers are modelled as `Int`/`Nat`;
  no claim exercises integer overflow.
* `chrono::DateTime<Utc>` timestamps are opaque to every claim, so they are
  modelled as `Nat`.
* Rust `HashMap<String, _>` maps are modelled as association lists with
  lookup/replace helpers; every map-derived quantity the claims touch is a sum
  of rationals, which is independent of iteration order.
* A pluggable `Strategy` is modelled by the trace of write-surface actions it
  performs in each hook (`market_order`, `limit_order`, `cancel_all_orders`):
  in a deterministic run these traces are exactly what the driver observes.
-/

namespace Menudo

/-- Order side (buy or sell), from `engine/execution.rs`. -/
inductive OrderSide where
  | Buy
  | Sell
deriving DecidableEq, Repr

/-- `OrderSide::to_qty_sign`: Buy = +1, Sell = -1. -/
def OrderSide.to_qty_sign : OrderSide → Int
  | OrderSide.Buy => 1
  | OrderSide.Sell => -1

/-- Order type, from `engine/execution.rs`. -/
inductive OrderType where
  | Market
  | Limit
  | Stop
deriving DecidableEq, Repr

/-- A trading order, from `engine/execution.rs` (`struct Order`). -/
structure Order where
  id : Nat
  timestamp : Nat
  symbol : String
  qty : Nat
  side : OrderSide
  order_type : OrderType
  limit_price : Option ℚ
  stop_price : Option ℚ
deriving DecidableEq, Repr

/-- `Order::market`. -/
def Order.market (id : Nat) (timestamp : Nat) (symbol : String) (qty : Nat)
    (side : OrderSide) : Order :=
  ⟨id, timestamp, symbol, qty, side, OrderType.Market, none, none⟩

/-- `Order::limit`. -/
def Order.limit (id : Nat) (timestamp : Nat) (symbol : String) (qty : Nat)
    (side : OrderSide) (limit_price : ℚ) : Order :=
  ⟨id, timestamp, symbol, qty, side, OrderType.Limit, some limit_price, none⟩

/-- `Order::stop`. -/
def Order.stop (id : Nat) (timestamp : Nat) (symbol : String) (qty : Nat)
    (side : OrderSide) (stop_price : ℚ) : Order :=
  ⟨id, timestamp, symbol, qty, side, OrderType.Stop, none, some stop_price⟩

/-- `Order::signed_qty`: quantity × (+1 for Buy, −1 for Sell). -/
def Order.signed_qty (o : Order) : Int :=
  (o.qty : Int) * o.side.to_qty_sign

/-- A filled order, from `engine/execution.rs` (`struct Fill`). -/
structure Fill where
  id : Nat
  order_id : Nat
  timestamp : Nat
  symbol : String
  qty : Int
  side : OrderSide
  fill_price : ℚ
  fees : ℚ
deriving DecidableEq, Repr

/-- `Fill::from_order`. -/
def Fill.from_order (fill_id : Nat) (o : Order) (fill_price : ℚ) (fees : ℚ) : Fill :=
  ⟨fill_id, o.id, o.timestamp, o.symbol, o.signed_qty, o.side, fill_price, fees⟩

/-- The order-matching engine state, from `engine/execution.rs`
(`struct ExecutionEngine`). -/
structure ExecutionEngine where
  next_order_id : Nat
  next_fill_id : Nat
  pending_orders : List Order
deriving DecidableEq, Repr

/-- `ExecutionEngine::new`. -/
def ExecutionEngine.new : ExecutionEngine :=
  ⟨1, 1, []⟩

/-- `ExecutionEngine::submit_order`: push onto pending, return the order id. -/
def ExecutionEngine.submit_order (e : ExecutionEngine) (o : Order) :
    ExecutionEngine × Nat :=
  ({ e with pending_orders := e.pending_orders ++ [o] }, o.id)

/-- `ExecutionEngine::market_order`: build a market order with the next
auto-assigned id and submit it. -/
def ExecutionEngine.market_order (e : ExecutionEngine) (timestamp : Nat)
    (symbol : String) (qty : Nat) (side : OrderSide) : ExecutionEngine × Nat :=
  let o := Order.market e.next_order_id timestamp symbol qty side
  ExecutionEngine.submit_order { e with next_order_id := e.next_order_id + 1 } o

/-- `ExecutionEngine::limit_order`. -/
def ExecutionEngine.limit_order (e : ExecutionEngine) (timestamp : Nat)
    (symbol : String) (qty : Nat) (side : OrderSide) (limit_price : ℚ) :
    ExecutionEngine × Nat :=
  let o := Order.limit e.next_order_id timestamp symbol qty side limit_price
  ExecutionEngine.submit_order { e with next_order_id := e.next_order_id + 1 } o

/-- The matching pass of `ExecutionEngine::process_orders`, made explicit over
the drained pending list and the running fill-id counter.  Returns
(fills, orders kept for the next call, next fill id). -/
def processOrdersAux (bar_open bar_high bar_low : ℚ) :
    List Order → Nat → List Fill × List Order × Nat
  | [], fid => ([], [], fid)
  | o :: rest, fid =>
    match o.order_type with
    | OrderType.Market =>
      let fill := Fill.from_order fid o bar_open 0
      let r := processOrdersAux bar_open bar_high bar_low rest (fid + 1)
      (fill :: r.1, r.2.1, r.2.2)
    | OrderType.Limit =>
      match o.limit_price with
      | some lp =>
        let filled : Bool :=
          match o.side with
          | OrderSide.Buy => decide (bar_low ≤ lp)
          | OrderSide.Sell => decide (lp ≤ bar_high)
        if filled then
          let fill := Fill.from_order fid o lp 0
          let r := processOrdersAux bar_open bar_high bar_low rest (fid + 1)
          (fill :: r.1, r.2.1, r.2.2)
        else
          let r := processOrdersAux bar_open bar_high bar_low rest fid
          (r.1, o :: r.2.1, r.2.2)
      | none =>
        -- the source silently drops a limit order with no limit price:
        -- it neither fills nor lands in `orders_to_keep`
        processOrdersAux bar_open bar_high bar_low rest fid
    | OrderType.Stop =>
      match o.stop_price with
      | some sp =>
        let triggered : Bool :=
          match o.side with
          | OrderSide.Buy => decide (sp ≤ bar_high)
          | OrderSide.Sell => decide (bar_low ≤ sp)
        if triggered then
          let fill := Fill.from_order fid o sp 0
          let r := processOrdersAux bar_open bar_high bar_low rest (fid + 1)
          (fill :: r.1, r.2.1, r.2.2)
        else
          let r := processOrdersAux bar_open bar_high bar_low rest fid
          (r.1, o :: r.2.1, r.2.2)
      | none =>
        -- a stop order with no stop price is likewise silently dropped
        processOrdersAux bar_open bar_high bar_low rest fid

/-- `ExecutionEngine::process_orders`: drain pending orders against the bar
range, returning the updated engine and the fills in submission order. -/
def ExecutionEngine.process_orders (e : ExecutionEngine)
    (bar_open bar_high bar_low : ℚ) : ExecutionEngine × List Fill :=
  let r := processOrdersAux bar_open bar_high bar_low e.pending_orders e.next_fill_id
  ({ e with pending_orders := r.2.1, next_fill_id := r.2.2 }, r.1)

/-- `ExecutionEngine::pending_order_count`. -/
def ExecutionEngine.pending_order_count (e : ExecutionEngine) : Nat :=
  e.pending_orders.length

/-- `ExecutionEngine::cancel_all_orders`. -/
def ExecutionEngine.cancel_all_orders (e : ExecutionEngine) : ExecutionEngine :=
  { e with pending_orders := [] }

/-- Whether one matching pass fills a pending order against the given bar
range (`true` for every market order; for limit/stop orders the price-cross
test of the source, `false` when the required price is absent). -/
def triggers (bar_high bar_low : ℚ) (o : Order) : Bool :=
  match o.order_type with
  | OrderType.Market => true
  | OrderType.Limit =>
    match o.limit_price with
    | some lp =>
      match o.side with
      | OrderSide.Buy => decide (bar_low ≤ lp)
      | OrderSide.Sell => decide (lp ≤ bar_high)
    | none => false
  | OrderType.Stop =>
    match o.stop_price with
    | some sp =>
      match o.side with
      | OrderSide.Buy => decide (sp ≤ bar_high)
      | OrderSide.Sell => decide (bar_low ≤ sp)
    | none => false

/-- Whether one matching pass keeps a pending order for the next call:
exactly the untriggered limit/stop orders whose required price is present. -/
def survives (bar_high bar_low : ℚ) (o : Order) : Bool :=
  match o.order_type with
  | OrderType.Market => false
  | OrderType.Limit => o.limit_price.isSome && !(triggers bar_high bar_low o)
  | OrderType.Stop => o.stop_price.isSome && !(triggers bar_high bar_low o)

/-- The price at which a triggered order fills: bar open for market orders,
the limit/stop price otherwise. -/
def fillPriceOf (bar_open : ℚ) (o : Order) : ℚ :=
  match o.order_type with
  | OrderType.Market => bar_open
  | OrderType.Limit => o.limit_price.getD 0
  | OrderType.Stop => o.stop_price.getD 0

/-- The fills one matching pass produces, in submission order: one fill per
triggered pending order, with strictly increasing fill ids. -/
def triggeredFills (bar_open bar_high bar_low : ℚ) : List Order → Nat → List Fill
  | [], _ => []
  | o :: rest, fid =>
    if triggers bar_high bar_low o then
      Fill.from_order fid o (fillPriceOf bar_open o) 0 ::
        triggeredFills bar_open bar_high bar_low rest (fid + 1)
    else
      triggeredFills bar_open bar_high bar_low rest fid

/-- A futures contract specification, from `instrument/futures_contract.rs`. -/
structure FuturesContract where
  symbol : String
  contract_month : String
  tick_size : ℚ
  tick_value : ℚ
  point_value : ℚ
  exchange : String
  currency : String
  multiplier : ℚ
  initial_margin : ℚ
  maintenance_margin : ℚ
deriving DecidableEq, Repr

/-- `FuturesContract::price_to_ticks`. -/
def FuturesContract.price_to_ticks (c : FuturesContract) (price_diff : ℚ) : ℚ :=
  price_diff / c.tick_size

/-- `FuturesContract::pnl_from_price_move`. -/
def FuturesContract.pnl_from_price_move (c : FuturesContract) (price_diff : ℚ)
    (quantity : Int) : ℚ :=
  c.price_to_ticks price_diff * c.tick_value * (quantity : ℚ)

/-- `FuturesContract::notional_value`. -/
def FuturesContract.notional_value (c : FuturesContract) (price : ℚ)
    (quantity : Int) : ℚ :=
  price * c.multiplier * (quantity.natAbs : ℚ)

/-- `FuturesContract::initial_margin_requirement`. -/
def FuturesContract.initial_margin_requirement (c : FuturesContract)
    (quantity : Int) : ℚ :=
  c.initial_margin * (quantity.natAbs : ℚ)

/-- `FuturesContract::maintenance_margin_requirement`. -/
def FuturesContract.maintenance_margin_requirement (c : FuturesContract)
    (quantity : Int) : ℚ :=
  c.maintenance_margin * (quantity.natAbs : ℚ)

/-- `FuturesContract::es`: the e-mini S&P 500 helper contract
(tick size 0.25, tick value 12.50). -/
def FuturesContract.es (contract_month : String) : FuturesContract :=
  ⟨"ES", contract_month, 1/4, 25/2, 50, "CME", "USD", 50, 13000, 12000⟩

/-- A position in a futures contract, from `portfolio/position.rs`. -/
structure Position where
  symbol : String
  net_qty : Int
  avg_entry_price : ℚ
  realized_pnl : ℚ
deriving DecidableEq, Repr

/-- `Position::new`: a fresh flat position. -/
def Position.new (symbol : String) : Position :=
  ⟨symbol, 0, 0, 0⟩

/-- `Position::is_flat`. -/
def Position.is_flat (p : Position) : Bool :=
  p.net_qty = 0

/-- `Position::unrealized_pnl`. -/
def Position.unrealized_pnl (p : Position) (current_price : ℚ)
    (contract : FuturesContract) : ℚ :=
  if p.net_qty = 0 then 0
  else contract.pnl_from_price_move (current_price - p.avg_entry_price) p.net_qty

/-- `Position::update_with_fill`: applies a signed fill quantity at a price,
returning the updated position and the realized P&L of this fill. -/
def Position.update_with_fill (p : Position) (fill_qty : Int) (fill_price : ℚ)
    (contract : FuturesContract) : Position × ℚ :=
  if p.net_qty = 0 then
    ({ p with net_qty := fill_qty, avg_entry_price := fill_price }, 0)
  else if (0 < p.net_qty ∧ 0 < fill_qty) ∨ (p.net_qty < 0 ∧ fill_qty < 0) then
    -- adding to position: blend the average entry price
    let total_qty := p.net_qty + fill_qty
    let total_cost := p.avg_entry_price * (p.net_qty : ℚ) + fill_price * (fill_qty : ℚ)
    ({ p with avg_entry_price := total_cost / (total_qty : ℚ), net_qty := total_qty }, 0)
  else
    -- reducing or reversing the position
    let close_qty : Int := min |fill_qty| |p.net_qty|
    let price_diff :=
      if 0 < p.net_qty then fill_price - p.avg_entry_price
      else p.avg_entry_price - fill_price
    let realized := contract.pnl_from_price_move price_diff close_qty
    let new_net := p.net_qty + fill_qty
    let avg1 :=
      if (0 < new_net ∧ 0 < fill_qty) ∨ (new_net < 0 ∧ fill_qty < 0) then fill_price
      else p.avg_entry_price
    let avg2 := if new_net = 0 then 0 else avg1
    ({ p with
         net_qty := new_net
         avg_entry_price := avg2
         realized_pnl := p.realized_pnl + realized }, realized)

/-- Association-list lookup, modelling `HashMap::get`. -/
def assocLookup {α : Type} : List (String × α) → String → Option α
  | [], _ => none
  | kv :: rest, s => if kv.1 = s then some kv.2 else assocLookup rest s

/-- Association-list insert-or-replace, modelling `HashMap::entry(..).or_insert`
followed by in-place mutation of the entry. -/
def assocSet {α : Type} : List (String × α) → String → α → List (String × α)
  | [], s, v => [(s, v)]
  | kv :: rest, s, v => if kv.1 = s then (s, v) :: rest else kv :: assocSet rest s v

/-- A trading account, from `portfolio/account.rs` (`struct Account`). -/
structure Account where
  initial_balance : ℚ
  cash : ℚ
  equity : ℚ
  margin_used : ℚ
  open_positions : List (String × Position)
  trade_log : List Fill
  commission_per_contract : ℚ
  slippage_per_contract : ℚ
deriving DecidableEq, Repr

/-- `Account::new`. -/
def Account.new (initial_balance commission_per_contract slippage_per_contract : ℚ) :
    Account :=
  ⟨initial_balance, initial_balance, initial_balance, 0, [], [],
   commission_per_contract, slippage_per_contract⟩

/-- The sum computed by `Account::update_margin_used`: initial-margin
requirements over the non-flat positions. -/
def marginSum (contract : FuturesContract) (ps : List (String × Position)) : ℚ :=
  (ps.map (fun kv => if kv.2.is_flat then 0
    else contract.initial_margin_requirement kv.2.net_qty)).sum

/-- `Account::update_margin_used`. -/
def Account.update_margin_used (a : Account) (contract : FuturesContract) : Account :=
  { a with margin_used := marginSum contract a.open_positions }

/-- The realized P&L that routing a fill into the account's position map
returns (the value `Account::process_fill` adds back into cash). -/
def Account.fillRealized (a : Account) (fill : Fill) (contract : FuturesContract) : ℚ :=
  (((assocLookup a.open_positions fill.symbol).getD
      (Position.new fill.symbol)).update_with_fill fill.qty fill.fill_price contract).2

/-- `Account::process_fill`: deduct costs, route the fill into the position
(created if absent), credit realized P&L, recompute margin, log the fill. -/
def Account.process_fill (a : Account) (fill : Fill) (contract : FuturesContract) :
    Account :=
  let total_cost :=
    (a.commission_per_contract + a.slippage_per_contract) * (fill.qty.natAbs : ℚ)
  let pos := (assocLookup a.open_positions fill.symbol).getD (Position.new fill.symbol)
  let r := pos.update_with_fill fill.qty fill.fill_price contract
  let a1 := { a with
    cash := a.cash - total_cost + r.2,
    open_positions := assocSet a.open_positions fill.symbol r.1 }
  let a2 := a1.update_margin_used contract
  { a2 with trade_log := a2.trade_log ++ [fill] }

/-- `Account::total_unrealized_pnl`: unrealized P&L summed over positions whose
symbol has both a price and a contract; symbols missing either contribute 0. -/
def Account.total_unrealized_pnl (a : Account) (prices : List (String × ℚ))
    (contracts : List (String × FuturesContract)) : ℚ :=
  (a.open_positions.map (fun kv =>
    match assocLookup prices kv.1, assocLookup contracts kv.1 with
    | some price, some contract => kv.2.unrealized_pnl price contract
    | _, _ => 0)).sum

/-- `Account::update_equity`: equity := cash + total unrealized P&L. -/
def Account.update_equity (a : Account) (prices : List (String × ℚ))
    (contracts : List (String × FuturesContract)) : Account :=
  { a with equity := a.cash + a.total_unrealized_pnl prices contracts }

/-- `Account::buying_power`. -/
def Account.buying_power (a : Account) : ℚ :=
  a.cash - a.margin_used

/-- Sequential application of a list of fills, as the driver does. -/
def Account.applyFills (contract : FuturesContract) (a : Account)
    (fills : List Fill) : Account :=
  fills.foldl (fun acc f => acc.process_fill f contract) a

/-- Sum of the per-fill realized P&L contributions along a replay of the fills
through the account, the quantities `process_fill` adds to cash one by one. -/
def fillsRealizedSum (contract : FuturesContract) : Account → List Fill → ℚ
  | _, [] => 0
  | a, f :: fs =>
    a.fillRealized f contract + fillsRealizedSum contract (a.process_fill f contract) fs

/-- Cumulative fee/commission cost over a list of fills, at the account's
per-contract commission and slippage rates. -/
def totalFees (commission_per_contract slippage_per_contract : ℚ)
    (fills : List Fill) : ℚ :=
  (fills.map (fun f =>
    (commission_per_contract + slippage_per_contract) * (f.qty.natAbs : ℚ))).sum

/-- Validation errors of `Bar::new`, from `data/bar.rs` (`enum BarError`). -/
inductive BarError where
  | InvalidHighLow (high low : ℚ)
  | InvalidClose (close high low : ℚ)
  | InvalidOpen (open_ high low : ℚ)
  | NegativeVolume (volume : ℚ)
deriving DecidableEq, Repr

/-- One OHLCV bar, from `data/bar.rs` (`struct Bar`). -/
structure Bar where
  timestamp : Nat
  open_ : ℚ
  high : ℚ
  low : ℚ
  close : ℚ
  volume : ℚ
  open_interest : Option ℚ
  symbol : String
deriving DecidableEq, Repr

/-- `Bar::new`: the validating constructor, checking high/low order, close and
open within range, and non-negative volume, in the source's order. -/
def Bar.new (timestamp : Nat) (open_ high low close volume : ℚ)
    (open_interest : Option ℚ) (symbol : String) : Except BarError Bar :=
  if high < low then
    Except.error (BarError.InvalidHighLow high low)
  else if close < low ∨ high < close then
    Except.error (BarError.InvalidClose close high low)
  else if open_ < low ∨ high < open_ then
    Except.error (BarError.InvalidOpen open_ high low)
  else if volume < 0 then
    Except.error (BarError.NegativeVolume volume)
  else
    Except.ok ⟨timestamp, open_, high, low, close, volume, open_interest, symbol⟩

/-- `Bar::new_unchecked`. -/
def Bar.new_unchecked (timestamp : Nat) (open_ high low close volume : ℚ)
    (open_interest : Option ℚ) (symbol : String) : Bar :=
  ⟨timestamp, open_, high, low, close, volume, open_interest, symbol⟩

/-- One write-surface action a strategy can perform through the
`StrategyContext` during a hook: submit a market order, submit a limit order,
or cancel all pending orders. -/
inductive StrategyAction where
  | marketReq (qty : Nat) (side : OrderSide)
  | limitReq (qty : Nat) (side : OrderSide) (price : ℚ)
  | cancelAllReq
deriving DecidableEq, Repr

/-- Effect of one strategy action on the matching engine, exactly the
corresponding `StrategyContext` method (orders carry the context's current
timestamp and the traded symbol). -/
def applyAction (e : ExecutionEngine) (timestamp : Nat) (symbol : String) :
    StrategyAction → ExecutionEngine
  | StrategyAction.marketReq qty side => (e.market_order timestamp symbol qty side).1
  | StrategyAction.limitReq qty side price =>
    (e.limit_order timestamp symbol qty side price).1
  | StrategyAction.cancelAllReq => e.cancel_all_orders

/-- Effect of a hook's whole action trace on the matching engine. -/
def applyActions (e : ExecutionEngine) (timestamp : Nat) (symbol : String)
    (acts : List StrategyAction) : ExecutionEngine :=
  acts.foldl (fun eng a => applyAction eng timestamp symbol a) e

/-- A pluggable strategy, modelled by the trace of write-surface actions each
hook performs: `on_start` once before any bar, `on_bar` per bar index, and
`on_end` after the loop. -/
structure ModelStrategy where
  on_start_actions : List StrategyAction
  on_bar_actions : Nat → List StrategyAction
  on_end_actions : List StrategyAction

/-- The driver-owned mutable state of one backtest run: the matching engine,
the account, and the recorded `(timestamp, equity)` history. -/
structure RunState where
  execution : ExecutionEngine
  account : Account
  equity_history : List (Nat × ℚ)

/-- One iteration of the driver's main loop (`BacktestEngine::run`) at a bar:
push the bar (the strategy sees it), apply the strategy's submissions, resolve
pending orders against the bar's (open, high, low) when `doProcess` (the
driver passes `i > 0`), route the fills into the account, and mark to the
bar's close.  Also returns the fills produced by this iteration. -/
def barStep (contract : FuturesContract) (acts : List StrategyAction)
    (doProcess : Bool) (bar : Bar) (st : RunState) : RunState × List Fill :=
  let e1 := applyActions st.execution bar.timestamp contract.symbol acts
  let pr := if doProcess then e1.process_orders bar.open_ bar.high bar.low else (e1, [])
  let acct1 := Account.applyFills contract st.account pr.2
  let acct2 := acct1.update_equity [(contract.symbol, bar.close)]
    [(contract.symbol, contract)]
  (⟨pr.1, acct2, st.equity_history ++ [(bar.timestamp, acct2.equity)]⟩, pr.2)

/-- The driver's main loop over the remaining bars, carrying the bar index. -/
def runLoop (contract : FuturesContract) (strat : ModelStrategy) :
    List Bar → Nat → RunState → RunState
  | [], _, st => st
  | bar :: rest, i, st =>
    runLoop contract strat rest (i + 1)
      (barStep contract (strat.on_bar_actions i) (decide (0 < i)) bar st).1

/-- A point of the equity curve, from `metrics/timeseries.rs`. -/
structure EquityPoint where
  timestamp : Nat
  equity : ℚ
  drawdown : ℚ
  returns : ℚ
deriving DecidableEq, Repr

/-- The loop body of `calculate_equity_curve`, carrying the running peak, the
previous equity, and whether this is the first point. -/
def eqCurveAux : List (Nat × ℚ) → ℚ → ℚ → Bool → List EquityPoint
  | [], _, _, _ => []
  | te :: rest, peak, prev, isFirst =>
    let peak1 := if peak < te.2 then te.2 else peak
    let drawdown := if 0 < peak1 then (peak1 - te.2) / peak1 else 0
    let returns := if isFirst then 0 else (te.2 - prev) / prev
    ⟨te.1, te.2, drawdown, returns⟩ :: eqCurveAux rest peak1 te.2 false

/-- `calculate_equity_curve` from `metrics/timeseries.rs`. -/
def calculate_equity_curve (timestamps : List Nat) (equity_values : List ℚ)
    (initial_balance : ℚ) : List EquityPoint :=
  eqCurveAux (timestamps.zip equity_values) initial_balance initial_balance true

/-- `max_drawdown` from `metrics/timeseries.rs`. -/
def max_drawdown (equity_curve : List EquityPoint) : ℚ :=
  (equity_curve.map (fun p => p.drawdown)).foldl max 0

/-- Trade statistics, from `metrics/summary.rs` (`struct TradeStats`).
`profit_factor` is `none` where the source produces `f64::INFINITY`
(wins with zero losses). -/
structure TradeStats where
  num_trades : Nat
  num_winning_trades : Nat
  num_losing_trades : Nat
  win_rate : ℚ
  avg_win : ℚ
  avg_loss : ℚ
  profit_factor : Option ℚ
  largest_win : ℚ
  largest_loss : ℚ
deriving DecidableEq, Repr

/-- The all-zero `TradeStats` the source returns for an empty trade log or an
empty round-trip list. -/
def TradeStats.zero : TradeStats :=
  ⟨0, 0, 0, 0, 0, 0, some 0, 0, 0⟩

/-- The round-trip grouping loop of `calculate_trade_statistics`: group the
fill sequence into open/close round trips and collect each round trip's
profit/loss. -/
def roundTripsLoop : List Fill → List Fill → List ℚ → List ℚ
  | [], _, acc => acc
  | t :: rest, open_trades, acc =>
    match open_trades with
    | [] => roundTripsLoop rest [t] acc
    | o0 :: os =>
      let last := os.getLastD o0
      let same_direction := (0 < last.qty ∧ 0 < t.qty) ∨ (last.qty < 0 ∧ t.qty < 0)
      if same_direction then
        roundTripsLoop rest ((o0 :: os) ++ [t]) acc
      else
        let total_qty : Int := ((o0 :: os).map (fun x => |x.qty|)).sum
        let avg_entry :=
          (((o0 :: os).map (fun x => x.fill_price * (x.qty.natAbs : ℚ))).sum) /
            (total_qty : ℚ)
        let profit_loss :=
          if 0 < o0.qty then
            (t.fill_price - avg_entry) * ((min total_qty |t.qty| : Int) : ℚ)
          else
            (avg_entry - t.fill_price) * ((min total_qty |t.qty| : Int) : ℚ)
        let next_open := if total_qty < |t.qty| then [t] else []
        roundTripsLoop rest next_open (acc ++ [profit_loss])

/-- `calculate_trade_statistics` from `metrics/summary.rs`. -/
def calculate_trade_statistics (trades : List Fill) : TradeStats :=
  if trades = [] then TradeStats.zero
  else
    let round_trips := roundTripsLoop trades [] []
    if round_trips = [] then TradeStats.zero
    else
      let winning := round_trips.filter (fun pl => 0 < pl)
      let losing := round_trips.filter (fun pl => pl < 0)
      let num_winning := winning.length
      let num_losing := losing.length
      let total := round_trips.length
      let win_rate := (num_winning : ℚ) / (total : ℚ)
      let avg_win := if 0 < num_winning then winning.sum / (num_winning : ℚ) else 0
      let avg_loss := if 0 < num_losing then losing.sum / (num_losing : ℚ) else 0
      let total_wins := winning.sum
      let total_losses := |losing.sum|
      let profit_factor :=
        if 0 < total_losses then some (total_wins / total_losses)
        else if 0 < total_wins then none
        else some 0
      let largest_win := winning.foldl max 0
      let largest_loss := losing.foldl min 0
      ⟨total, num_winning, num_losing, win_rate, avg_win, avg_loss, profit_factor,
       largest_win, largest_loss⟩

/-- Summary metrics of a backtest, from `metrics/summary.rs`
(`struct SummaryMetrics`).  The CAGR, Sharpe, Sortino and exposure fields are
omitted from the embedding: they require real powers and square roots of
floating-point data and no claim touches them. -/
structure SummaryMetrics where
  initial_balance : ℚ
  final_balance : ℚ
  total_return : ℚ
  total_return_pct : ℚ
  max_drawdown : ℚ
  win_rate : ℚ
  avg_win : ℚ
  avg_loss : ℚ
  profit_factor : Option ℚ
  num_trades : Nat
  num_winning_trades : Nat
  num_losing_trades : Nat
  largest_win : ℚ
  largest_loss : ℚ
deriving DecidableEq, Repr

/-- `SummaryMetrics::from_backtest` (restricted to the embedded fields). -/
def SummaryMetrics.from_backtest (equity_curve : List EquityPoint)
    (trades : List Fill) (initial_balance : ℚ) : SummaryMetrics :=
  let final_balance := ((equity_curve.getLast?).map (fun p => p.equity)).getD
    initial_balance
  let total_return := final_balance - initial_balance
  let total_return_pct := total_return / initial_balance
  let max_dd := Menudo.max_drawdown equity_curve
  let stats := calculate_trade_statistics trades
  ⟨initial_balance, final_balance, total_return, total_return_pct, max_dd,
   stats.win_rate, stats.avg_win, stats.avg_loss, stats.profit_factor,
   stats.num_trades, stats.num_winning_trades, stats.num_losing_trades,
   stats.largest_win, stats.largest_loss⟩

/-- Backtest configuration, from `engine/backtest.rs` (`struct BacktestConfig`). -/
structure BacktestConfig where
  initial_balance : ℚ
  commission_per_contract : ℚ
  slippage_per_contract : ℚ
  max_lookback : Nat
deriving DecidableEq, Repr

/-- Result of a backtest, from `engine/backtest.rs` (`struct BacktestResult`). -/
structure BacktestResult where
  summary : SummaryMetrics
  equity_curve : List EquityPoint
  trades : List Fill
deriving DecidableEq, Repr

/-- Overwrite the equity value of the last recorded history entry, keeping its
timestamp (`self.equity_history.last_mut()` assignment in the source). -/
def setLastEquity : List (Nat × ℚ) → ℚ → List (Nat × ℚ)
  | [], _ => []
  | [te], v => [(te.1, v)]
  | te :: rest, v => te :: setLastEquity (rest) v

/-- `BacktestEngine::build_result`. -/
def build_result (config : BacktestConfig) (st : RunState) : BacktestResult :=
  let timestamps := st.equity_history.map (fun te => te.1)
  let equity_values := st.equity_history.map (fun te => te.2)
  let equity_curve :=
    calculate_equity_curve timestamps equity_values config.initial_balance
  let trades := st.account.trade_log
  ⟨SummaryMetrics.from_backtest equity_curve trades config.initial_balance,
   equity_curve, trades⟩

/-- `BacktestEngine::run`: the full driver — start hook, per-bar loop,
end-of-run double resolution against the final bar's (close, high, low),
final equity overwrite, and result construction.  With no bars, the
`on_start`/`on_end` hooks still run but nothing is ever resolved. -/
def BacktestEngine.run (config : BacktestConfig) (contract : FuturesContract)
    (strat : ModelStrategy) (bars : List Bar) : BacktestResult :=
  let st0 : RunState :=
    ⟨ExecutionEngine.new,
     Account.new config.initial_balance config.commission_per_contract
       config.slippage_per_contract, []⟩
  -- on_start runs before any bar; the context clock is not yet bar-driven
  let e0 := applyActions st0.execution 0 contract.symbol strat.on_start_actions
  let st1 : RunState := ⟨e0, st0.account, st0.equity_history⟩
  let st2 := runLoop contract strat bars 0 st1
  -- first end-of-run resolution against the final bar, close in place of open
  let st3 :=
    match bars.getLast? with
    | none => st2
    | some lb =>
      let pr := st2.execution.process_orders lb.close lb.high lb.low
      ⟨pr.1, Account.applyFills contract st2.account pr.2, st2.equity_history⟩
  -- on_end hook (the context clock holds the final bar's timestamp)
  let endTime := ((bars.getLast?).map (fun lb => lb.timestamp)).getD 0
  let e4 := applyActions st3.execution endTime contract.symbol strat.on_end_actions
  let st4 : RunState := ⟨e4, st3.account, st3.equity_history⟩
  -- second end-of-run resolution, final mark-to-market and equity overwrite
  let st5 :=
    match bars.getLast? with
    | none => st4
    | some lb =>
      let pr := st4.execution.process_orders lb.close lb.high lb.low
      let acct := Account.applyFills contract st4.account pr.2
      let acct2 := acct.update_equity [(contract.symbol, lb.close)]
        [(contract.symbol, contract)]
      ⟨pr.1, acct2, setLastEquity st4.equity_history acct2.equity⟩
  build_result config st5

/-- Sequential application of `(signed_qty, fill_price)` fills to a position,
keeping the updated position (the driver routes every fill this way). -/
def applyFillsToPosition (contract : FuturesContract) (p : Position)
    (fs : List (Int × ℚ)) : Position :=
  fs.foldl (fun q f => (q.update_with_fill f.1 f.2 contract).1) p

/-- A concrete bar used to instantiate universal theorems. -/
def demoBar : Bar :=
  ⟨1, 105, 110, 100, 107, 1000, none, "ES"⟩

/-- A concrete fresh run state used to instantiate universal theorems. -/
def demoState : RunState :=
  ⟨ExecutionEngine.new, Account.new 100000 (5/2) 1, []⟩

/-- A concrete strategy that submits one buy market order on every bar. -/
def demoStrategy : ModelStrategy :=
  ⟨[], fun _ => [StrategyAction.marketReq 1 OrderSide.Buy], []⟩

/-- A concrete engine with one pending limit buy and one pending stop sell. -/
def demoEngine : ExecutionEngine :=
  ⟨3, 1, [Order.limit 1 0 "ES" 2 OrderSide.Buy 100, Order.stop 2 0 "ES" 1 OrderSide.Sell 90]⟩

/-- A pending limit order whose limit price is absent. -/
def demoNoPriceOrder : Order :=
  ⟨7, 0, "ES", 1, OrderSide.Buy, OrderType.Limit, none, none⟩

/-- A concrete engine holding only `demoNoPriceOrder`. -/
def demoEngine2 : ExecutionEngine :=
  ⟨8, 1, [demoNoPriceOrder]⟩

/-! Helper lemmas about the matching pass. -/

theorem processOrdersAux_fst (bar_open bar_high bar_low : ℚ) (orders : List Order) :
    ∀ fid : Nat, (processOrdersAux bar_open bar_high bar_low orders fid).1 =
      triggeredFills bar_open bar_high bar_low orders fid := by
  induction orders with
  | nil => intro fid; rfl
  | cons o rest ih =>
    intro fid
    cases hot : o.order_type with
    | Market => simp [processOrdersAux, triggeredFills, triggers, fillPriceOf, hot, ih]
    | Limit =>
      cases holp : o.limit_price with
      | none => simp [processOrdersAux, triggeredFills, triggers, hot, holp, ih]
      | some lp =>
        cases hside : o.side with
        | Buy =>
          by_cases hc : bar_low ≤ lp
          · simp [processOrdersAux, triggeredFills, triggers, fillPriceOf, hot, holp,
              hside, hc, ih]
          · simp [processOrdersAux, triggeredFills, triggers, fillPriceOf, hot, holp,
              hside, hc, ih]
        | Sell =>
          by_cases hc : lp ≤ bar_high
          · simp [processOrdersAux, triggeredFills, triggers, fillPriceOf, hot, holp,
              hside, hc, ih]
          · simp [processOrdersAux, triggeredFills, triggers, fillPriceOf, hot, holp,
              hside, hc, ih]
    | Stop =>
      cases hosp : o.stop_price with
      | none => simp [processOrdersAux, triggeredFills, triggers, hot, hosp, ih]
      | some sp =>
        cases hside : o.side with
        | Buy =>
          by_cases hc : sp ≤ bar_high
          · simp [processOrdersAux, triggeredFills, triggers, fillPriceOf, hot, hosp,
              hside, hc, ih]
          · simp [processOrdersAux, triggeredFills, triggers, fillPriceOf, hot, hosp,
              hside, hc, ih]
        | Sell =>
          by_cases hc : bar_low ≤ sp
          · simp [processOrdersAux, triggeredFills, triggers, fillPriceOf, hot, hosp,
              hside, hc, ih]
          · simp [processOrdersAux, triggeredFills, triggers, fillPriceOf, hot, hosp,
              hside, hc, ih]

theorem processOrdersAux_keeps (bar_open bar_high bar_low : ℚ) (orders : List Order) :
    ∀ fid : Nat, (processOrdersAux bar_open bar_high bar_low orders fid).2.1 =
      orders.filter (fun o => survives bar_high bar_low o) := by
  induction orders with
  | nil => intro fid; rfl
  | cons o rest ih =>
    intro fid
    cases hot : o.order_type with
    | Market => simp [processOrdersAux, survives, triggers, hot, ih]
    | Limit =>
      cases holp : o.limit_price with
      | none => simp [processOrdersAux, survives, triggers, hot, holp, ih]
      | some lp =>
        cases hside : o.side with
        | Buy =>
          by_cases hc : bar_low ≤ lp
          · simp [processOrdersAux, survives, triggers, hot, holp, hside, hc, ih]
          · simp [processOrdersAux, survives, triggers, hot, holp, hside, hc, ih]
        | Sell =>
          by_cases hc : lp ≤ bar_high
          · simp [processOrdersAux, survives, triggers, hot, holp, hside, hc, ih]
          · simp [processOrdersAux, survives, triggers, hot, holp, hside, hc, ih]
    | Stop =>
      cases hosp : o.stop_price with
      | none => simp [processOrdersAux, survives, triggers, hot, hosp, ih]
      | some sp =>
        cases hside : o.side with
        | Buy =>
          by_cases hc : sp ≤ bar_high
          · simp [processOrdersAux, survives, triggers, hot, hosp, hside, hc, ih]
          · simp [processOrdersAux, survives, triggers, hot, hosp, hside, hc, ih]
        | Sell =>
          by_cases hc : bar_low ≤ sp
          · simp [processOrdersAux, survives, triggers, hot, hosp, hside, hc, ih]
          · simp [processOrdersAux, survives, triggers, hot, hosp, hside, hc, ih]

theorem triggeredFills_fees (bar_open bar_high bar_low : ℚ) (orders : List Order) :
    ∀ (fid : Nat) (f : Fill),
      f ∈ triggeredFills bar_open bar_high bar_low orders fid → f.fees = 0 := by
  induction orders with
  | nil => intro fid f hf; simp [triggeredFills] at hf
  | cons o rest ih =>
    intro fid f hf
    by_cases ht : triggers bar_high bar_low o = true
    · simp only [triggeredFills, if_pos ht, List.mem_cons] at hf
      rcases hf with hf | hf
      · subst hf; rfl
      · exact ih _ f hf
    · simp only [triggeredFills, if_neg ht] at hf
      exact ih _ f hf

theorem triggeredFills_of_mem (bar_open bar_high bar_low : ℚ) (orders : List Order) :
    ∀ (fid : Nat) (o : Order), o ∈ orders → triggers bar_high bar_low o = true →
      ∃ f ∈ triggeredFills bar_open bar_high bar_low orders fid,
        f.order_id = o.id ∧ f.fill_price = fillPriceOf bar_open o ∧
        f.qty = o.signed_qty := by
  induction orders with
  | nil => intro fid o ho; simp at ho
  | cons a rest ih =>
    intro fid o ho ht
    rcases List.mem_cons.mp ho with rfl | ho
    · refine ⟨Fill.from_order fid o (fillPriceOf bar_open o) 0, ?_, rfl, rfl, rfl⟩
      simp [triggeredFills, if_pos ht]
    · by_cases ha : triggers bar_high bar_low a = true
      · obtain ⟨f, hf, hprops⟩ := ih (fid + 1) o ho ht
        exact ⟨f, by simp [triggeredFills, if_pos ha, hf], hprops⟩
      · obtain ⟨f, hf, hprops⟩ := ih fid o ho ht
        exact ⟨f, by simp [triggeredFills, if_neg ha, hf], hprops⟩

theorem triggeredFills_src (bar_open bar_high bar_low : ℚ) (orders : List Order) :
    ∀ (fid : Nat) (f : Fill), f ∈ triggeredFills bar_open bar_high bar_low orders fid →
      ∃ o ∈ orders, f.order_id = o.id ∧ f.qty = o.signed_qty ∧
        f.fill_price = fillPriceOf bar_open o ∧ triggers bar_high bar_low o = true := by
  induction orders with
  | nil => intro fid f hf; simp [triggeredFills] at hf
  | cons a rest ih =>
    intro fid f hf
    by_cases ha : triggers bar_high bar_low a = true
    · simp only [triggeredFills, if_pos ha, List.mem_cons] at hf
      rcases hf with rfl | hf
      · exact ⟨a, List.mem_cons_self a rest, rfl, rfl, rfl, ha⟩
      · obtain ⟨o, ho, hprops⟩ := ih _ f hf
        exact ⟨o, List.mem_cons_of_mem a ho, hprops⟩
    · simp only [triggeredFills, if_neg ha] at hf
      obtain ⟨o, ho, hprops⟩ := ih _ f hf
      exact ⟨o, List.mem_cons_of_mem a ho, hprops⟩

theorem process_orders_fills_eq (e : ExecutionEngine) (bar_open bar_high bar_low : ℚ) :
    (e.process_orders bar_open bar_high bar_low).2 =
      triggeredFills bar_open bar_high bar_low e.pending_orders e.next_fill_id := by
  simp [ExecutionEngine.process_orders, processOrdersAux_fst]

theorem process_orders_keeps_eq (e : ExecutionEngine) (bar_open bar_high bar_low : ℚ) :
    (e.process_orders bar_open bar_high bar_low).1.pending_orders =
      e.pending_orders.filter (fun o => survives bar_high bar_low o) := by
  simp [ExecutionEngine.process_orders, processOrdersAux_keeps]

/-! Helper lemmas about strategy-action traces. -/

theorem applyActions_pending_extend (timestamp : Nat) (symbol : String)
    (acts : List StrategyAction) (hnc : StrategyAction.cancelAllReq ∉ acts) :
    ∀ (e : ExecutionEngine) (o : Order), o ∈ e.pending_orders →
      o ∈ (applyActions e timestamp symbol acts).pending_orders := by
  induction acts with
  | nil => intro e o ho; exact ho
  | cons a rest ih =>
    intro e o ho
    have hnc1 : StrategyAction.cancelAllReq ∉ rest := fun h => hnc (List.mem_cons_of_mem a h)
    have ha : a ≠ StrategyAction.cancelAllReq := fun h => hnc (h ▸ List.mem_cons_self a rest)
    cases a with
    | marketReq qty side =>
      exact ih hnc1 _ o (by
        simp [applyAction, ExecutionEngine.market_order, ExecutionEngine.submit_order,
          List.mem_append, ho])
    | limitReq qty side price =>
      exact ih hnc1 _ o (by
        simp [applyAction, ExecutionEngine.limit_order, ExecutionEngine.submit_order,
          List.mem_append, ho])
    | cancelAllReq => exact absurd rfl ha

theorem applyActions_market_submitted (timestamp : Nat) (symbol : String)
    (qty : Nat) (side : OrderSide) (acts : List StrategyAction)
    (hmem : StrategyAction.marketReq qty side ∈ acts)
    (hnc : StrategyAction.cancelAllReq ∉ acts) :
    ∀ e : ExecutionEngine, ∃ o ∈ (applyActions e timestamp symbol acts).pending_orders,
      o.order_type = OrderType.Market ∧ o.qty = qty ∧ o.side = side := by
  induction acts with
  | nil => simp at hmem
  | cons a rest ih =>
    intro e
    have hnc1 : StrategyAction.cancelAllReq ∉ rest := fun h => hnc (List.mem_cons_of_mem a h)
    rcases List.mem_cons.mp hmem with heq | hmem1
    · subst heq
      refine ⟨Order.market e.next_order_id timestamp symbol qty side, ?_, rfl, rfl, rfl⟩
      apply applyActions_pending_extend timestamp symbol rest hnc1
      simp [applyAction, ExecutionEngine.market_order, ExecutionEngine.submit_order]
    · exact ih hmem1 hnc1 _

/-- C2: one `process_orders` call against a bar range (open, high, low) fills a
pending limit Buy at its limit price iff `bar_low ≤ limit_price`, a limit Sell
at its limit price iff `bar_high ≥ limit_price`, a stop Buy at its stop price
iff `bar_high ≥ stop_price`, a stop Sell at its stop price iff
`bar_low ≤ stop_price`; an untriggered order stays in the pending set for the
next call; and every fill the engine emits carries zero fees. -/
theorem process_orders_limit_stop_rules (e : ExecutionEngine)
    (bar_open bar_high bar_low : ℚ) :
    (∀ f ∈ (e.process_orders bar_open bar_high bar_low).2, f.fees = 0) ∧
    (∀ o ∈ e.pending_orders, ∀ lp : ℚ, o.order_type = OrderType.Limit →
      o.limit_price = some lp →
      ((o.side = OrderSide.Buy →
        (bar_low ≤ lp →
          ∃ f ∈ (e.process_orders bar_open bar_high bar_low).2,
            f.order_id = o.id ∧ f.fill_price = lp ∧ f.qty = o.signed_qty) ∧
        (¬ bar_low ≤ lp →
          o ∈ (e.process_orders bar_open bar_high bar_low).1.pending_orders)) ∧
       (o.side = OrderSide.Sell →
        (lp ≤ bar_high →
          ∃ f ∈ (e.process_orders bar_open bar_high bar_low).2,
            f.order_id = o.id ∧ f.fill_price = lp ∧ f.qty = o.signed_qty) ∧
        (¬ lp ≤ bar_high →
          o ∈ (e.process_orders bar_open bar_high bar_low).1.pending_orders)))) ∧
    (∀ o ∈ e.pending_orders, ∀ sp : ℚ, o.order_type = OrderType.Stop →
      o.stop_price = some sp →
      ((o.side = OrderSide.Buy →
        (sp ≤ bar_high →
          ∃ f ∈ (e.process_orders bar_open bar_high bar_low).2,
            f.order_id = o.id ∧ f.fill_price = sp ∧ f.qty = o.signed_qty) ∧
        (¬ sp ≤ bar_high →
          o ∈ (e.process_orders bar_open bar_high bar_low).1.pending_orders)) ∧
       (o.side = OrderSide.Sell →
        (bar_low ≤ sp →
          ∃ f ∈ (e.process_orders bar_open bar_high bar_low).2,
            f.order_id = o.id ∧ f.fill_price = sp ∧ f.qty = o.signed_qty) ∧
        (¬ bar_low ≤ sp →
          o ∈ (e.process_orders bar_open bar_high bar_low).1.pending_orders)))) := by
  refine ⟨?_, ?_, ?_⟩
  · intro f hf
    rw [process_orders_fills_eq] at hf
    exact triggeredFills_fees bar_open bar_high bar_low e.pending_orders _ f hf
  · intro o ho lp hot holp
    constructor
    · intro hside
      constructor
      · intro hc
        rw [process_orders_fills_eq]
        have ht : triggers bar_high bar_low o = true := by
          simp [triggers, hot, holp, hside, hc]
        obtain ⟨f, hf, h1, h2, h3⟩ :=
          triggeredFills_of_mem bar_open bar_high bar_low e.pending_orders
            e.next_fill_id o ho ht
        refine ⟨f, hf, h1, ?_, h3⟩
        rw [h2]; simp [fillPriceOf, hot, holp]
      · intro hc
        rw [process_orders_keeps_eq]
        refine List.mem_filter.mpr ⟨ho, ?_⟩
        simp [survives, triggers, hot, holp, hside, hc]
    · intro hside
      constructor
      · intro hc
        rw [process_orders_fills_eq]
        have ht : triggers bar_high bar_low o = true := by
          simp [triggers, hot, holp, hside, hc]
        obtain ⟨f, hf, h1, h2, h3⟩ :=
          triggeredFills_of_mem bar_open bar_high bar_low e.pending_orders
            e.next_fill_id o ho ht
        refine ⟨f, hf, h1, ?_, h3⟩
        rw [h2]; simp [fillPriceOf, hot, holp]
      · intro hc
        rw [process_orders_keeps_eq]
        refine List.mem_filter.mpr ⟨ho, ?_⟩
        simp [survives, triggers, hot, holp, hside, hc]
  · intro o ho sp hot hosp
    constructor
    · intro hside
      constructor
      · intro hc
        rw [process_orders_fills_eq]
        have ht : triggers bar_high bar_low o = true := by
          simp [triggers, hot, hosp, hside, hc]
        obtain ⟨f, hf, h1, h2, h3⟩ :=
          triggeredFills_of_mem bar_open bar_high bar_low e.pending_orders
            e.next_fill_id o ho ht
        refine ⟨f, hf, h1, ?_, h3⟩
        rw [h2]; simp [fillPriceOf, hot, hosp]
      · intro hc
        rw [process_orders_keeps_eq]
        refine List.mem_filter.mpr ⟨ho, ?_⟩
        simp [survives, triggers, hot, hosp, hside, hc]
    · intro hside
      constructor
      · intro hc
        rw [process_orders_fills_eq]
        have ht : triggers bar_high bar_low o = true := by
          simp [triggers, hot, hosp, hside, hc]
        obtain ⟨f, hf, h1, h2, h3⟩ :=
          triggeredFills_of_mem bar_open bar_high bar_low e.pending_orders
            e.next_fill_id o ho ht
        refine ⟨f, hf, h1, ?_, h3⟩
        rw [h2]; simp [fillPriceOf, hot, hosp]
      · intro hc
        rw [process_orders_keeps_eq]
        refine List.mem_filter.mpr ⟨ho, ?_⟩
        simp [survives, triggers, hot, hosp, hside, hc]

/-- Witness for C2: a pending limit buy at 100 against a bar with low 99 fills
at exactly 100. -/
theorem process_orders_limit_stop_rules_witness :
    (99 : ℚ) ≤ 100 ∧
    ∃ f ∈ (demoEngine.process_orders 105 110 99).2,
      f.order_id = 1 ∧ f.fill_price = 100 ∧
      f.qty = (Order.limit 1 0 "ES" 2 OrderSide.Buy 100).signed_qty := by
  refine ⟨by norm_num, ?_⟩
  have h := process_orders_limit_stop_rules demoEngine 105 110 99
  exact ((h.2.1 (Order.limit 1 0 "ES" 2 OrderSide.Buy 100) (by decide) 100 rfl rfl).1
    rfl).1 (by norm_num)

/-- C10: a pending limit order with no limit price, or stop order with no stop
price, is silently dropped by a `process_orders` call against any bar range:
it leaves the pending set, and no fill is produced for it (every emitted fill
originates from a pending order the pass triggered, and a price-less order
never triggers). -/
theorem process_orders_missing_price (e : ExecutionEngine)
    (bar_open bar_high bar_low : ℚ) :
    (∀ o ∈ e.pending_orders,
      (o.order_type = OrderType.Limit ∧ o.limit_price = none) ∨
        (o.order_type = OrderType.Stop ∧ o.stop_price = none) →
      o ∉ (e.process_orders bar_open bar_high bar_low).1.pending_orders) ∧
    (∀ f ∈ (e.process_orders bar_open bar_high bar_low).2,
      ∃ o ∈ e.pending_orders, f.order_id = o.id ∧ f.qty = o.signed_qty ∧
        triggers bar_high bar_low o = true) ∧
    (∀ o : Order,
      (o.order_type = OrderType.Limit ∧ o.limit_price = none) ∨
        (o.order_type = OrderType.Stop ∧ o.stop_price = none) →
      triggers bar_high bar_low o = false) := by
  refine ⟨?_, ?_, ?_⟩
  · intro o _ hshape hmem
    rw [process_orders_keeps_eq] at hmem
    have hs := (List.mem_filter.mp hmem).2
    rcases hshape with ⟨hot, hnone⟩ | ⟨hot, hnone⟩ <;>
      simp [survives, triggers, hot, hnone] at hs
  · intro f hf
    rw [process_orders_fills_eq] at hf
    obtain ⟨o, ho, h1, h2, _, h4⟩ :=
      triggeredFills_src bar_open bar_high bar_low e.pending_orders _ f hf
    exact ⟨o, ho, h1, h2, h4⟩
  · intro o hshape
    rcases hshape with ⟨hot, hnone⟩ | ⟨hot, hnone⟩ <;> simp [triggers, hot, hnone]

/-- Witness for C10: the price-less limit order is dropped from the pending
set by a process call. -/
theorem process_orders_missing_price_witness :
    demoNoPriceOrder ∈ demoEngine2.pending_orders ∧
    demoNoPriceOrder ∉ (demoEngine2.process_orders 1 2 0).1.pending_orders := by
  refine ⟨by decide, ?_⟩
  exact (process_orders_missing_price demoEngine2 1 2 0).1 demoNoPriceOrder
    (by decide) (Or.inl ⟨rfl, rfl⟩)

/-- C1: in the driver's per-bar loop, iteration `i` runs the strategy's
submissions and then resolves pending orders against the current bar's
(open, high, low) exactly when `i > 0` (first conjunct: the loop unfolds to
`barStep` with process flag `i > 0`).  When `i > 0`, every pending market
order — in particular one just submitted while processing bar `i`, which the
fourth conjunct shows is pending if the strategy did not cancel — fills at
bar `i`'s open, the very bar `barStep` received.  When `i = 0` the step
produces no fills and leaves the engine exactly as the submissions left it,
so a bar-0 order waits for a later iteration or the post-loop step. -/
theorem driver_fill_timing (contract : FuturesContract) (strat : ModelStrategy)
    (rest : List Bar) (bar : Bar) (i : Nat) (st : RunState) :
    (runLoop contract strat (bar :: rest) i st =
      runLoop contract strat rest (i + 1)
        (barStep contract (strat.on_bar_actions i) (decide (0 < i)) bar st).1) ∧
    (0 < i →
      ∀ o ∈ (applyActions st.execution bar.timestamp contract.symbol
          (strat.on_bar_actions i)).pending_orders,
        o.order_type = OrderType.Market →
        ∃ f ∈ (barStep contract (strat.on_bar_actions i) true bar st).2,
          f.order_id = o.id ∧ f.fill_price = bar.open_ ∧ f.qty = o.signed_qty) ∧
    ((barStep contract (strat.on_bar_actions i) false bar st).2 = [] ∧
      (barStep contract (strat.on_bar_actions i) false bar st).1.execution =
        applyActions st.execution bar.timestamp contract.symbol
          (strat.on_bar_actions i)) ∧
    (∀ (qty : Nat) (side : OrderSide),
      StrategyAction.marketReq qty side ∈ strat.on_bar_actions i →
      StrategyAction.cancelAllReq ∉ strat.on_bar_actions i →
      ∃ o ∈ (applyActions st.execution bar.timestamp contract.symbol
          (strat.on_bar_actions i)).pending_orders,
        o.order_type = OrderType.Market ∧ o.qty = qty ∧ o.side = side) := by
  refine ⟨rfl, ?_, ⟨rfl, rfl⟩, ?_⟩
  · intro _ o ho hmkt
    have hfills : (barStep contract (strat.on_bar_actions i) true bar st).2 =
        ((applyActions st.execution bar.timestamp contract.symbol
          (strat.on_bar_actions i)).process_orders bar.open_ bar.high bar.low).2 := rfl
    rw [hfills, process_orders_fills_eq]
    have ht : triggers bar.high bar.low o = true := by simp [triggers, hmkt]
    obtain ⟨f, hf, h1, h2, h3⟩ := triggeredFills_of_mem bar.open_ bar.high bar.low _ _ o ho ht
    refine ⟨f, hf, h1, ?_, h3⟩
    rw [h2]; simp [fillPriceOf, hmkt]
  · intro qty side hmem hnc
    exact applyActions_market_submitted bar.timestamp contract.symbol qty side
      (strat.on_bar_actions i) hmem hnc st.execution

/-- Witness for C1: at bar index 1, the strategy's one-contract buy market
order fills at that bar's open of 105. -/
theorem driver_fill_timing_witness :
    0 < 1 ∧
    ∃ f ∈ (barStep (FuturesContract.es "H25") (demoStrategy.on_bar_actions 1) true demoBar
        demoState).2,
      f.order_id = 1 ∧ f.fill_price = 105 ∧
      f.qty = (Order.market 1 1 "ES" 1 OrderSide.Buy).signed_qty := by
  refine ⟨by decide, ?_⟩
  have h := driver_fill_timing (FuturesContract.es "H25") demoStrategy [] demoBar 1 demoState
  exact h.2.1 (by decide) (Order.market 1 1 "ES" 1 OrderSide.Buy) (by decide) rfl

/-- C3: a fill in the direction of a non-flat position blends the average
entry price to `(avg·|net| + price·|fill|) / (|net| + |fill|)`, sets the net
quantity to `net + fill`, and realizes no P&L. -/
theorem position_same_direction_blend (p : Position) (fill_qty : Int)
    (fill_price : ℚ) (contract : FuturesContract)
    (hsame : (0 < p.net_qty ∧ 0 < fill_qty) ∨ (p.net_qty < 0 ∧ fill_qty < 0)) :
    (p.update_with_fill fill_qty fill_price contract).1.avg_entry_price =
      (p.avg_entry_price * |(p.net_qty : ℚ)| + fill_price * |(fill_qty : ℚ)|) /
        (|(p.net_qty : ℚ)| + |(fill_qty : ℚ)|) ∧
    (p.update_with_fill fill_qty fill_price contract).1.net_qty =
      p.net_qty + fill_qty ∧
    (p.update_with_fill fill_qty fill_price contract).2 = 0 := by
  have hnz : ¬ p.net_qty = 0 := by rcases hsame with ⟨h, _⟩ | ⟨h, _⟩ <;> omega
  unfold Position.update_with_fill
  rw [if_neg hnz, if_pos hsame]
  refine ⟨?_, rfl, rfl⟩
  show (p.avg_entry_price * (p.net_qty : ℚ) + fill_price * (fill_qty : ℚ)) /
      ((p.net_qty + fill_qty : Int) : ℚ) = _
  rcases hsame with ⟨hn, hf⟩ | ⟨hn, hf⟩
  · have hn2 : (0 : ℚ) < (p.net_qty : ℚ) := by exact_mod_cast hn
    have hf2 : (0 : ℚ) < (fill_qty : ℚ) := by exact_mod_cast hf
    rw [abs_of_pos hn2, abs_of_pos hf2]
    push_cast
    ring_nf
  · have hn2 : (p.net_qty : ℚ) < 0 := by exact_mod_cast hn
    have hf2 : (fill_qty : ℚ) < 0 := by exact_mod_cast hf
    rw [abs_of_neg hn2, abs_of_neg hf2]
    have e1 : p.avg_entry_price * -(p.net_qty : ℚ) + fill_price * -(fill_qty : ℚ) =
        -(p.avg_entry_price * (p.net_qty : ℚ) + fill_price * (fill_qty : ℚ)) := by ring
    have e2 : -(p.net_qty : ℚ) + -(fill_qty : ℚ) = -((p.net_qty : ℚ) + (fill_qty : ℚ)) := by
      ring
    rw [e1, e2, neg_div_neg_eq]
    push_cast
    ring_nf

/-- Witness for C3: a long 2 @ 100 receiving a buy of 3 @ 110 blends to
5 @ 106 with zero realized P&L. -/
theorem position_same_direction_blend_witness :
    ((0 : Int) < 2 ∧ (0 : Int) < 3) ∧
    ((Position.mk "ES" 2 100 0).update_with_fill 3 110
        (FuturesContract.es "H25")).1.avg_entry_price =
      (100 * |((2 : Int) : ℚ)| + 110 * |((3 : Int) : ℚ)|) /
        (|((2 : Int) : ℚ)| + |((3 : Int) : ℚ)|) ∧
    ((Position.mk "ES" 2 100 0).update_with_fill 3 110
        (FuturesContract.es "H25")).1.net_qty = 2 + 3 ∧
    ((Position.mk "ES" 2 100 0).update_with_fill 3 110
        (FuturesContract.es "H25")).2 = 0 := by
  refine ⟨⟨by decide, by decide⟩, ?_⟩
  exact position_same_direction_blend (Position.mk "ES" 2 100 0) 3 110
    (FuturesContract.es "H25") (Or.inl ⟨by decide, by decide⟩)

/-- C4: a fill of sign opposite to a non-flat position closes
`min(|fill|, |net|)` units, realizes the sign-adjusted exit-minus-entry price
difference on the closed quantity through the contract's tick-to-dollar
conversion (accumulating into the position's running realized P&L), sets the
net quantity to `net + fill`, resets the average entry price to the fill
price when the net has flipped sign, and to zero when the net is exactly
zero. -/
theorem position_reduce_reverse (p : Position) (fill_qty : Int) (fill_price : ℚ)
    (contract : FuturesContract)
    (hopp : (0 < p.net_qty ∧ fill_qty < 0) ∨ (p.net_qty < 0 ∧ 0 < fill_qty)) :
    (p.update_with_fill fill_qty fill_price contract).2 =
      contract.pnl_from_price_move
        (if 0 < p.net_qty then fill_price - p.avg_entry_price
          else p.avg_entry_price - fill_price)
        (min |fill_qty| |p.net_qty|) ∧
    (p.update_with_fill fill_qty fill_price contract).1.net_qty =
      p.net_qty + fill_qty ∧
    (p.update_with_fill fill_qty fill_price contract).1.realized_pnl =
      p.realized_pnl + (p.update_with_fill fill_qty fill_price contract).2 ∧
    (p.net_qty + fill_qty = 0 →
      (p.update_with_fill fill_qty fill_price contract).1.avg_entry_price = 0) ∧
    (((0 < p.net_qty ∧ p.net_qty + fill_qty < 0) ∨
        (p.net_qty < 0 ∧ 0 < p.net_qty + fill_qty)) →
      (p.update_with_fill fill_qty fill_price contract).1.avg_entry_price =
        fill_price) := by
  have hnz : ¬ p.net_qty = 0 := by rcases hopp with ⟨h, _⟩ | ⟨h, _⟩ <;> omega
  have hns : ¬ ((0 < p.net_qty ∧ 0 < fill_qty) ∨ (p.net_qty < 0 ∧ fill_qty < 0)) := by
    rcases hopp with ⟨h1, h2⟩ | ⟨h1, h2⟩ <;> omega
  unfold Position.update_with_fill
  rw [if_neg hnz, if_neg hns]
  refine ⟨rfl, rfl, rfl, ?_, ?_⟩
  · intro hzero
    show (if p.net_qty + fill_qty = 0 then (0 : ℚ) else _) = 0
    rw [if_pos hzero]
  · intro hflip
    have hz : ¬ p.net_qty + fill_qty = 0 := by
      rcases hflip with ⟨h1, h2⟩ | ⟨h1, h2⟩ <;> omega
    have hcond : (0 < p.net_qty + fill_qty ∧ 0 < fill_qty) ∨
        (p.net_qty + fill_qty < 0 ∧ fill_qty < 0) := by
      rcases hflip with ⟨h1, h2⟩ | ⟨h1, h2⟩
      · right
        constructor
        · exact h2
        · rcases hopp with ⟨_, h3⟩ | ⟨h3, _⟩ <;> omega
      · left
        constructor
        · exact h2
        · rcases hopp with ⟨h3, _⟩ | ⟨_, h3⟩ <;> omega
    show (if p.net_qty + fill_qty = 0 then (0 : ℚ)
      else if (0 < p.net_qty + fill_qty ∧ 0 < fill_qty) ∨
        (p.net_qty + fill_qty < 0 ∧ fill_qty < 0) then fill_price
      else p.avg_entry_price) = fill_price
    rw [if_neg hz, if_pos hcond]

/-- Witness for C4: a long 5 @ 100 receiving a sell of 8 @ 110 realizes the
P&L of 5 closed units over a 10-point move (2500 dollars on the ES contract)
and reverses to net −3 @ 110. -/
theorem position_reduce_reverse_witness :
    ((0 : Int) < 5 ∧ (-8 : Int) < 0) ∧
    ((Position.mk "ES" 5 100 0).update_with_fill (-8) 110
        (FuturesContract.es "H25")).2 =
      (FuturesContract.es "H25").pnl_from_price_move 10 5 ∧
    ((Position.mk "ES" 5 100 0).update_with_fill (-8) 110
        (FuturesContract.es "H25")).2 = 2500 ∧
    ((Position.mk "ES" 5 100 0).update_with_fill (-8) 110
        (FuturesContract.es "H25")).1.net_qty = -3 ∧
    ((Position.mk "ES" 5 100 0).update_with_fill (-8) 110
        (FuturesContract.es "H25")).1.avg_entry_price = 110 := by
  have h := position_reduce_reverse (Position.mk "ES" 5 100 0) (-8) 110
    (FuturesContract.es "H25") (Or.inl ⟨by decide, by decide⟩)
  refine ⟨⟨by decide, by decide⟩, ?_, ?_, ?_, ?_⟩
  · rw [h.1]
    norm_num [FuturesContract.pnl_from_price_move, FuturesContract.price_to_ticks,
      FuturesContract.es]
  · rw [h.1]
    norm_num [FuturesContract.pnl_from_price_move, FuturesContract.price_to_ticks,
      FuturesContract.es]
  · rw [h.2.1]; decide
  · exact h.2.2.2.2 (Or.inl ⟨by decide, by decide⟩)

theorem update_with_fill_flat_avg (p : Position) (q : Int) (price : ℚ)
    (contract : FuturesContract) (hq : q ≠ 0) :
    (p.update_with_fill q price contract).1.net_qty = 0 →
    (p.update_with_fill q price contract).1.avg_entry_price = 0 := by
  unfold Position.update_with_fill
  by_cases h0 : p.net_qty = 0
  · rw [if_pos h0]
    intro h
    exact absurd h hq
  · rw [if_neg h0]
    by_cases hsame : (0 < p.net_qty ∧ 0 < q) ∨ (p.net_qty < 0 ∧ q < 0)
    · rw [if_pos hsame]
      intro h
      exfalso
      rcases hsame with ⟨h1, h2⟩ | ⟨h1, h2⟩ <;> simp at h <;> omega
    · rw [if_neg hsame]
      intro h
      simp only at h
      show (if p.net_qty + q = 0 then (0 : ℚ) else _) = 0
      rw [if_pos h]

theorem applyFillsToPosition_flat_inv (contract : FuturesContract)
    (fs : List (Int × ℚ)) :
    ∀ p : Position, (∀ f ∈ fs, f.1 ≠ 0) →
      (p.net_qty = 0 → p.avg_entry_price = 0) →
      ((applyFillsToPosition contract p fs).net_qty = 0 →
        (applyFillsToPosition contract p fs).avg_entry_price = 0) := by
  induction fs with
  | nil => intro p _ hp; exact hp
  | cons f rest ih =>
    intro p hnz _
    have hstep : applyFillsToPosition contract p (f :: rest) =
        applyFillsToPosition contract ((p.update_with_fill f.1 f.2 contract).1) rest := rfl
    rw [hstep]
    exact ih _ (fun g hg => hnz g (List.mem_cons_of_mem f hg))
      (update_with_fill_flat_avg p f.1 f.2 contract (hnz f (List.mem_cons_self f rest)))

/-- Counterexample for C7 as frozen: applying a single zero-quantity fill at
price 1 to a fresh flat position leaves `net_qty = 0` but sets
`avg_entry_price = 1 ≠ 0` (the flat branch of `update_with_fill` stores the
fill price unconditionally). -/
theorem position_flat_avg_zero_cex :
    (applyFillsToPosition (FuturesContract.es "H25") (Position.new "ES")
        [(0, 1)]).net_qty = 0 ∧
    (applyFillsToPosition (FuturesContract.es "H25") (Position.new "ES")
        [(0, 1)]).avg_entry_price = 1 := by
  constructor <;> rfl

/-- C7 (amended): for every position reachable from a fresh flat position by
a sequence of `update_with_fill` applications whose signed fill quantities
are all nonzero, `avg_entry_price = 0` whenever `net_qty = 0`. -/
theorem position_flat_avg_zero (contract : FuturesContract) (s : String)
    (fs : List (Int × ℚ)) (hnz : ∀ f ∈ fs, f.1 ≠ 0) :
    (applyFillsToPosition contract (Position.new s) fs).net_qty = 0 →
    (applyFillsToPosition contract (Position.new s) fs).avg_entry_price = 0 :=
  applyFillsToPosition_flat_inv contract fs (Position.new s) hnz (fun _ => rfl)

/-- Witness for C7 (amended): open 2 @ 100 then close 2 @ 110; the position
returns to flat with a reset average entry price. -/
theorem position_flat_avg_zero_witness :
    (∀ f ∈ ([(2, 100), (-2, 110)] : List (Int × ℚ)), f.1 ≠ 0) ∧
    (applyFillsToPosition (FuturesContract.es "H25") (Position.new "ES")
        [(2, 100), (-2, 110)]).net_qty = 0 ∧
    (applyFillsToPosition (FuturesContract.es "H25") (Position.new "ES")
        [(2, 100), (-2, 110)]).avg_entry_price = 0 := by
  refine ⟨by decide, by decide, ?_⟩
  exact position_flat_avg_zero (FuturesContract.es "H25") "ES" [(2, 100), (-2, 110)]
    (by decide) (by decide)

/-- C5: `process_fill` leaves the account with: cash = old cash minus
`(commission + slippage)·|qty|` plus the realized P&L returned by routing the
fill into the symbol's position (created if absent); that updated position
stored back in the map; margin-in-use recomputed as the sum of initial-margin
requirements over the non-flat post-fill positions; and the fill appended to
the trade log. -/
theorem account_process_fill_effects (a : Account) (fill : Fill)
    (contract : FuturesContract) :
    (a.process_fill fill contract).cash =
      a.cash - (a.commission_per_contract + a.slippage_per_contract) *
        (fill.qty.natAbs : ℚ) + a.fillRealized fill contract ∧
    (a.process_fill fill contract).open_positions =
      assocSet a.open_positions fill.symbol
        (((assocLookup a.open_positions fill.symbol).getD
          (Position.new fill.symbol)).update_with_fill fill.qty fill.fill_price
            contract).1 ∧
    (a.process_fill fill contract).margin_used =
      marginSum contract (a.process_fill fill contract).open_positions ∧
    (a.process_fill fill contract).trade_log = a.trade_log ++ [fill] ∧
    (a.process_fill fill contract).initial_balance = a.initial_balance ∧
    (a.process_fill fill contract).commission_per_contract =
      a.commission_per_contract ∧
    (a.process_fill fill contract).slippage_per_contract =
      a.slippage_per_contract :=
  ⟨rfl, rfl, rfl, rfl, rfl, rfl, rfl⟩

theorem applyFills_preserved (contract : FuturesContract) (fs : List Fill) :
    ∀ a : Account,
      (Account.applyFills contract a fs).initial_balance = a.initial_balance ∧
      (Account.applyFills contract a fs).commission_per_contract =
        a.commission_per_contract ∧
      (Account.applyFills contract a fs).slippage_per_contract =
        a.slippage_per_contract := by
  induction fs with
  | nil => intro a; exact ⟨rfl, rfl, rfl⟩
  | cons f rest ih =>
    intro a
    have hstep : Account.applyFills contract a (f :: rest) =
        Account.applyFills contract (a.process_fill f contract) rest := rfl
    rw [hstep]
    exact ih (a.process_fill f contract)

theorem applyFills_cash (contract : FuturesContract) (fs : List Fill) :
    ∀ a : Account, (Account.applyFills contract a fs).cash =
      a.cash - totalFees a.commission_per_contract a.slippage_per_contract fs +
        fillsRealizedSum contract a fs := by
  induction fs with
  | nil => intro a; simp [Account.applyFills, totalFees, fillsRealizedSum]
  | cons f rest ih =>
    intro a
    have hstep : Account.applyFills contract a (f :: rest) =
        Account.applyFills contract (a.process_fill f contract) rest := rfl
    rw [hstep, ih (a.process_fill f contract)]
    have hcash : (a.process_fill f contract).cash =
        a.cash - (a.commission_per_contract + a.slippage_per_contract) *
          (f.qty.natAbs : ℚ) + a.fillRealized f contract := rfl
    have hc : (a.process_fill f contract).commission_per_contract =
        a.commission_per_contract := rfl
    have hs : (a.process_fill f contract).slippage_per_contract =
        a.slippage_per_contract := rfl
    have hsum : fillsRealizedSum contract a (f :: rest) =
        a.fillRealized f contract +
          fillsRealizedSum contract (a.process_fill f contract) rest := rfl
    have hfees : totalFees a.commission_per_contract a.slippage_per_contract
        (f :: rest) =
        (a.commission_per_contract + a.slippage_per_contract) * (f.qty.natAbs : ℚ) +
          totalFees a.commission_per_contract a.slippage_per_contract rest := by
      simp [totalFees]
    rw [hcash, hc, hs, hsum, hfees]
    ring

/-- C6: replaying any fill sequence into a fresh account and then marking to
market reconciles exactly: the sum of per-fill realized P&L contributions,
plus the final unrealized P&L, minus the cumulative fee/commission cost
(fees are cash deductions, so they enter the reconciliation negatively),
equals `final_equity − initial_balance`. -/
theorem account_equity_reconciliation (initial_balance commission slippage : ℚ)
    (contract : FuturesContract) (fs : List Fill)
    (prices : List (String × ℚ)) (contracts : List (String × FuturesContract)) :
    fillsRealizedSum contract (Account.new initial_balance commission slippage) fs +
      (Account.applyFills contract (Account.new initial_balance commission slippage)
        fs).total_unrealized_pnl prices contracts -
      totalFees commission slippage fs =
    ((Account.applyFills contract (Account.new initial_balance commission slippage)
        fs).update_equity prices contracts).equity -
      ((Account.applyFills contract (Account.new initial_balance commission slippage)
        fs).update_equity prices contracts).initial_balance := by
  have hequity : ((Account.applyFills contract
      (Account.new initial_balance commission slippage) fs).update_equity prices
        contracts).equity =
      (Account.applyFills contract (Account.new initial_balance commission slippage)
        fs).cash +
      (Account.applyFills contract (Account.new initial_balance commission slippage)
        fs).total_unrealized_pnl prices contracts := rfl
  have hinit : ((Account.applyFills contract
      (Account.new initial_balance commission slippage) fs).update_equity prices
        contracts).initial_balance =
      (Account.applyFills contract (Account.new initial_balance commission slippage)
        fs).initial_balance := rfl
  rw [hequity, hinit,
    (applyFills_preserved contract fs (Account.new initial_balance commission slippage)).1,
    applyFills_cash contract fs (Account.new initial_balance commission slippage)]
  show fillsRealizedSum contract (Account.new initial_balance commission slippage) fs +
      _ - totalFees commission slippage fs =
    initial_balance - totalFees commission slippage fs +
      fillsRealizedSum contract (Account.new initial_balance commission slippage) fs +
      _ - initial_balance
  ring

/-- C9: a driver run over an empty bar sequence completes and returns an
empty equity history, an empty trade log, and a summary reporting zero
trades, for every configuration, contract and strategy. -/
theorem run_empty_bars (config : BacktestConfig) (contract : FuturesContract)
    (strat : ModelStrategy) :
    (BacktestEngine.run config contract strat []).equity_curve = [] ∧
    (BacktestEngine.run config contract strat []).trades = [] ∧
    (BacktestEngine.run config contract strat []).summary.num_trades = 0 :=
  ⟨rfl, rfl, rfl⟩

/-- C8: the validating `Bar::new` succeeds iff `low ≤ open ≤ high`,
`low ≤ close ≤ high` and `volume ≥ 0`; on success the bar holds exactly the
supplied fields; and each violation fails with its specific error, in the
source's checking order (high below low, then close out of range, then open
out of range, then negative volume). -/
theorem bar_new_valid (ts : Nat) (op hi lo cl vol : ℚ) (oi : Option ℚ)
    (sym : String) :
    ((∃ b, Bar.new ts op hi lo cl vol oi sym = Except.ok b) ↔
      (lo ≤ op ∧ op ≤ hi ∧ lo ≤ cl ∧ cl ≤ hi ∧ 0 ≤ vol)) ∧
    (∀ b, Bar.new ts op hi lo cl vol oi sym = Except.ok b →
      b = ⟨ts, op, hi, lo, cl, vol, oi, sym⟩) ∧
    (hi < lo → Bar.new ts op hi lo cl vol oi sym =
      Except.error (BarError.InvalidHighLow hi lo)) ∧
    (¬ hi < lo → (cl < lo ∨ hi < cl) → Bar.new ts op hi lo cl vol oi sym =
      Except.error (BarError.InvalidClose cl hi lo)) ∧
    (¬ hi < lo → ¬ (cl < lo ∨ hi < cl) → (op < lo ∨ hi < op) →
      Bar.new ts op hi lo cl vol oi sym =
        Except.error (BarError.InvalidOpen op hi lo)) ∧
    (¬ hi < lo → ¬ (cl < lo ∨ hi < cl) → ¬ (op < lo ∨ hi < op) → vol < 0 →
      Bar.new ts op hi lo cl vol oi sym =
        Except.error (BarError.NegativeVolume vol)) := by
  unfold Bar.new
  split_ifs with h1 h2 h3 h4
  · refine ⟨⟨?_, ?_⟩, ?_, fun _ => rfl, fun h _ => absurd h1 h,
      fun h _ _ => absurd h1 h, fun h _ _ _ => absurd h1 h⟩
    · rintro ⟨b, hb⟩; simp at hb
    · rintro ⟨hlo, hoh, hlc, hch, hv⟩; exfalso; linarith
    · intro b hb; simp at hb
  · refine ⟨⟨?_, ?_⟩, ?_, fun h => absurd h h1, fun _ _ => rfl,
      fun _ h _ => absurd h2 h, fun _ h _ _ => absurd h2 h⟩
    · rintro ⟨b, hb⟩; simp at hb
    · rintro ⟨hlo, hoh, hlc, hch, hv⟩
      exfalso; rcases h2 with h | h <;> linarith
    · intro b hb; simp at hb
  · refine ⟨⟨?_, ?_⟩, ?_, fun h => absurd h h1, fun _ h => absurd h h2,
      fun _ _ _ => rfl, fun _ _ h _ => absurd h3 h⟩
    · rintro ⟨b, hb⟩; simp at hb
    · rintro ⟨hlo, hoh, hlc, hch, hv⟩
      exfalso; rcases h3 with h | h <;> linarith
    · intro b hb; simp at hb
  · refine ⟨⟨?_, ?_⟩, ?_, fun h => absurd h h1, fun _ h => absurd h h2,
      fun _ _ h => absurd h h3, fun _ _ _ _ => rfl⟩
    · rintro ⟨b, hb⟩; simp at hb
    · rintro ⟨hlo, hoh, hlc, hch, hv⟩; exfalso; linarith
    · intro b hb; simp at hb
  · refine ⟨⟨fun _ => ?_, fun _ => ⟨_, rfl⟩⟩, ?_, fun h => absurd h h1,
      fun _ h => absurd h h2, fun _ _ h => absurd h h3, fun _ _ _ h => absurd h h4⟩
    · push_neg at h2 h3
      refine ⟨h3.1, h3.2, h2.1, h2.2, by linarith⟩
    · intro b hb
      simp only [Except.ok.injEq] at hb
      exact hb.symm

/-- Witness for C8: a well-formed bar constructs successfully, and an inverted
high/low pair fails with `InvalidHighLow`. -/
theorem bar_new_valid_witness :
    ((1 : ℚ) ≤ 5 ∧ (5 : ℚ) ≤ 10 ∧ (1 : ℚ) ≤ 7 ∧ (7 : ℚ) ≤ 10 ∧ (0 : ℚ) ≤ 100) ∧
    (∃ b, Bar.new 0 5 10 1 7 100 none "ES" = Except.ok b) ∧
    Bar.new 0 5 1 10 7 100 none "ES" =
      Except.error (BarError.InvalidHighLow 1 10) := by
  refine ⟨by norm_num, ?_, ?_⟩
  · exact (bar_new_valid 0 5 10 1 7 100 none "ES").1.mpr (by norm_num)
  · exact (bar_new_valid 0 5 1 10 7 100 none "ES").2.2.1 (by norm_num)

end Menudo
